import Mathlib

/-!
Verification development for the two algorithmic engines of the
Editor-of-Death code base: the per-line stateful Python highlighter
(`PythonHighlighter.highlightBlock`), the positional line-diff engine
(`DiffHighlighter.highlight` / `clear_both`), the highlight-layer state of
`CodeEditor` (`highlight_current_line`, `clear_search_highlight`), and the
find-all search loop (`EditorMain._find_all`).

The embedding is a direct translation of the Python source.  Lines are
`List Char`; a character read past the end of the line yields the NUL
character (which is in none of the character classes used by the
highlighter, matching Python indexing that is always guarded by a length
test).  Word characters (`\w`, used for the `\b` boundaries of the
regexes) are modelled over ASCII, which covers every input considered
here.  Loops that are `while` loops or `re.finditer` scans in the source
are translated with an explicit fuel argument; every top-level call
passes fuel `length + 1` (or more), which strictly exceeds the number of
iterations any scan can perform, so the fuel never runs out on the
modelled calls.
-/

namespace EditorOfDeath

/-- Lexical carry-over state of `PythonHighlighter`:
`STATE_NONE = 0`, `STATE_TRIPLE_S = 1`, `STATE_TRIPLE_D = 2`. -/
inductive HState where
  | none
  | tripleS
  | tripleD
deriving DecidableEq, Repr

/-- Classification tags, one per `QTextCharFormat` the highlighter can
install: `plain` is the absence of a `setFormat` call. -/
inductive Tag where
  | plain
  | deco
  | string
  | interp
  | number
  | keyword
  | builtin
  | funcCall
  | comment
deriving DecidableEq, Repr

/-- One `setFormat(start, count, fmt)` call: start, count, tag. -/
abbrev Fmt := Nat × Nat × Tag

/-- Character of the line at index `i`; NUL when out of range. -/
def charAt (t : List Char) (i : Nat) : Char := t.getD i (Char.ofNat 0)

/-- ASCII model of the regex word class `\w`. -/
def wordChar (c : Char) : Bool := c.isAlphanum || c == '_'

/-- The class `[A-Za-z_]` opening an identifier. -/
def identStart (c : Char) : Bool := c.isAlpha || c == '_'

/-- Does `pat` occur in `t` starting at index `j`? -/
def matchAt (t pat : List Char) (j : Nat) : Bool :=
  (t.drop j).take pat.length == pat

/-- Python `text.find(pat, i)`: the least `j ≥ i` at which `pat` occurs,
`Option.none` when there is no occurrence.  Fuel-recursive; a call with
fuel at least `t.length + 1 - i` never exhausts the fuel. -/
def findSub (t pat : List Char) : Nat → Nat → Option Nat
  | _, 0 => Option.none
  | i, fuel + 1 =>
    if i + pat.length ≤ t.length then
      if matchAt t pat i then some i
      else findSub t pat (i + 1) fuel
    else Option.none

/-- Scan of a single- or double-quoted string body (`highlightBlock`,
the inner `while j < n` loop): advance `j` with a backslash-escape
toggle until just past the closing quote `q` or to line end. -/
def scanStr (t : List Char) (q : Char) : Nat → Bool → Nat → Nat
  | j, _, 0 => j
  | j, esc, fuel + 1 =>
    if j < t.length then
      if esc then scanStr t q (j + 1) false fuel
      else if charAt t j == '\\' then scanStr t q (j + 1) true fuel
      else if charAt t j == q then j + 1
      else scanStr t q (j + 1) esc fuel
    else j

/-- Length of the maximal run of characters satisfying `p` starting
at index `i` (the greedy `*`/`+` pieces of the regexes). -/
def runLen (p : Char → Bool) (t : List Char) (i : Nat) : Nat :=
  ((t.drop i).takeWhile p).length

/-- The four quote alternatives of the string-opening regex
`('''|\"\"\"|'|\")`, in their alternation order. -/
inductive QKind where
  | ts
  | td
  | sq
  | dq
deriving DecidableEq, Repr

def tq1 : List Char := ['\'', '\'', '\'']
def tq2 : List Char := ['"', '"', '"']

/-- Which quote alternative (if any) matches at position `p`; triple
quotes are tried before single ones, as in the alternation. -/
def quoteAt (t : List Char) (p : Nat) : Option QKind :=
  if matchAt t tq1 p then some QKind.ts
  else if matchAt t tq2 p then some QKind.td
  else if charAt t p == '\'' then some QKind.sq
  else if charAt t p == '"' then some QKind.dq
  else Option.none

/-- Match of the full string-opening pattern `[fF]?('''|\"\"\"|'|\")` at
position `p`: the prefix length (0 or 1) and the quote kind. -/
def strMatchAt (t : List Char) (p : Nat) : Option (Nat × QKind) :=
  if charAt t p == 'f' || charAt t p == 'F' then
    match quoteAt t (p + 1) with
    | some k => some (1, k)
    | Option.none => Option.none
  else (quoteAt t p).map (fun k => (0, k))

/-- Leftmost match of the string-opening pattern at a position `≥ p`
(`pat.search(text, idx)`): start position, prefix length, quote kind. -/
def patSearch (t : List Char) : Nat → Nat → Option (Nat × Nat × QKind)
  | _, 0 => Option.none
  | p, fuel + 1 =>
    if p < t.length then
      match strMatchAt t p with
      | some (pl, k) => some (p, pl, k)
      | Option.none => patSearch t (p + 1) fuel
    else Option.none

/-- Interpolation-marker formats of `_f_braces(text, s, e)`: one
one-character format per literal brace in `text[s:e]`. -/
def fBraces (t : List Char) (s e : Nat) : List Fmt :=
  (List.range' s (e - s)).filterMap (fun k =>
    if charAt t k == '\x7b' || charAt t k == '\x7d' then
      some (k, 1, Tag.interp)
    else Option.none)

/-- The string-classification loop (`while idx < n` in `highlightBlock`):
emits the string and interpolation formats in call order and, when an
unterminated triple quote is met, the state for the early `return`. -/
def strLoop (t : List Char) : Nat → Nat → List Fmt × Option HState
  | _, 0 => ([], Option.none)
  | idx, fuel + 1 =>
    match patSearch t idx (t.length + 1) with
    | Option.none => ([], Option.none)
    | some (s, pl, QKind.ts) =>
      match findSub t tq1 (s + 3) (t.length + 1) with
      | Option.none => ([(s, t.length - s, Tag.string)], some HState.tripleS)
      | some e =>
        ((s, e + 3 - s, Tag.string) ::
            (if pl = 1 then fBraces t s (e + 3) else []) ++
            (strLoop t (e + 3) fuel).1,
         (strLoop t (e + 3) fuel).2)
    | some (s, pl, QKind.td) =>
      match findSub t tq2 (s + 3) (t.length + 1) with
      | Option.none => ([(s, t.length - s, Tag.string)], some HState.tripleD)
      | some e =>
        ((s, e + 3 - s, Tag.string) ::
            (if pl = 1 then fBraces t s (e + 3) else []) ++
            (strLoop t (e + 3) fuel).1,
         (strLoop t (e + 3) fuel).2)
    | some (s, pl, QKind.sq) =>
      ((s, scanStr t '\'' (s + 1 + pl) false (t.length + 1) - s, Tag.string) ::
          (if pl = 1 then
            fBraces t s (scanStr t '\'' (s + 1 + pl) false (t.length + 1))
          else []) ++
          (strLoop t (scanStr t '\'' (s + 1 + pl) false (t.length + 1)) fuel).1,
       (strLoop t (scanStr t '\'' (s + 1 + pl) false (t.length + 1)) fuel).2)
    | some (s, pl, QKind.dq) =>
      ((s, scanStr t '"' (s + 1 + pl) false (t.length + 1) - s, Tag.string) ::
          (if pl = 1 then
            fBraces t s (scanStr t '"' (s + 1 + pl) false (t.length + 1))
          else []) ++
          (strLoop t (scanStr t '"' (s + 1 + pl) false (t.length + 1)) fuel).1,
       (strLoop t (scanStr t '"' (s + 1 + pl) false (t.length + 1)) fuel).2)

/-- Generic `re.finditer` driver: at each position try `step`; on a
match emit its formats and resume at the match end, otherwise advance
one position. -/
def passLoop (t : List Char) (step : Nat → Option (Nat × List Fmt)) :
    Nat → Nat → List Fmt
  | _, 0 => []
  | p, fuel + 1 =>
    if p < t.length then
      match step p with
      | some (e, fs) => fs ++ passLoop t step e fuel
      | Option.none => passLoop t step (p + 1) fuel
    else []

/-- Decorator match `@[A-Za-z_][A-Za-z0-9_\.]*` at position `p`. -/
def decoSpanAt (t : List Char) (p : Nat) : Option Nat :=
  if charAt t p == '@' && identStart (charAt t (p + 1)) then
    some (p + 2 + runLen (fun c => wordChar c || c == '.') t (p + 2))
  else Option.none

def decoStep (t : List Char) (p : Nat) : Option (Nat × List Fmt) :=
  (decoSpanAt t p).map (fun e => (e, [(p, e - p, Tag.deco)]))

/-- Decorator pass (`re.finditer(r"@[A-Za-z_][A-Za-z0-9_\.]*", text)`). -/
def decoPass (t : List Char) : List Fmt :=
  passLoop t (decoStep t) 0 (t.length + 1)

/-- Class `[0-9a-fA-F_]` of hex-literal bodies. -/
def hexU (c : Char) : Bool :=
  c.isDigit || ('a' ≤ c && c ≤ 'f') || ('A' ≤ c && c ≤ 'F') || c == '_'

/-- Class `[01_]` of binary-literal bodies. -/
def binU (c : Char) : Bool := c == '0' || c == '1' || c == '_'

/-- Class `[0-7_]` of octal-literal bodies. -/
def octU (c : Char) : Bool := ('0' ≤ c && c ≤ '7') || c == '_'

/-- Class `[\d_]` of decimal-literal bodies. -/
def digitU (c : Char) : Bool := c.isDigit || c == '_'

/-- Word boundary `\b` placed after a word character, at position `e`:
holds when the character at `e` is not a word character (in particular
at line end). -/
def bAt (t : List Char) (e : Nat) : Bool := !(wordChar (charAt t e))

/-- End of a match of the exponent group `[eE][+-]?\d[\d_]*` at `q`. -/
def expEnd (t : List Char) (q : Nat) : Option Nat :=
  if charAt t q == 'e' || charAt t q == 'E' then
    let q1 := if charAt t (q + 1) == '+' || charAt t (q + 1) == '-' then q + 2 else q + 1
    if (charAt t q1).isDigit then some (q1 + 1 + runLen digitU t (q1 + 1))
    else Option.none
  else Option.none

/-- End of a match of `0[xX]…`, `0[bB]…` or `0[oO]…` (body class `pred`,
radix letters `c1`/`c2`) followed by `\b` at position `p`.  Shrinking
the greedy body run cannot restore the boundary (every body character is
a word character), so the maximal run is the only candidate. -/
def matchRadixAt (t : List Char) (p : Nat) (pred : Char → Bool) (c1 c2 : Char) :
    Option Nat :=
  if charAt t p == '0' && (charAt t (p + 1) == c1 || charAt t (p + 1) == c2) then
    let r := runLen pred t (p + 2)
    if r ≥ 1 && bAt t (p + 2 + r) then some (p + 2 + r) else Option.none
  else Option.none

/-- End of a match of `\d[\d_]*(\.\d[\d_]*)?([eE][+-]?\d[\d_]*)?\b` at
`p`.  Backtracking can only usefully drop the whole fractional or
exponent group (shrinking a greedy `[\d_]*` run leaves a word character
before the boundary), so the candidate ends are tried in the regex
backtracking order: fraction with exponent, fraction alone, exponent
alone, bare integer part.  `decCands` lists those candidate ends and
`matchDecAt` takes the first one at which the boundary holds. -/
def decCands (t : List Char) (p : Nat) : List Nat :=
  let be := p + 1 + runLen digitU t (p + 1)
  (if charAt t be == '.' && (charAt t (be + 1)).isDigit then
     (match expEnd t (be + 2 + runLen digitU t (be + 2)) with
      | some e1 => [e1]
      | Option.none => []) ++ [be + 2 + runLen digitU t (be + 2)]
   else []) ++
  (match expEnd t be with
   | some e2 => [e2]
   | Option.none => []) ++ [be]

def matchDecAt (t : List Char) (p : Nat) : Option Nat :=
  if (charAt t p).isDigit then (decCands t p).find? (fun e => bAt t e)
  else Option.none

/-- Match of the numeric-literal regex at position `p`, alternatives in
alternation order, with the leading `\b` (every alternative starts with
a digit, so the boundary is equivalent to the previous character not
being a word character). -/
def numMatchAt (t : List Char) (p : Nat) : Option Nat :=
  if p == 0 || !(wordChar (charAt t (p - 1))) then
    match matchRadixAt t p hexU 'x' 'X' with
    | some e => some e
    | Option.none =>
      match matchRadixAt t p binU 'b' 'B' with
      | some e => some e
      | Option.none =>
        match matchRadixAt t p octU 'o' 'O' with
        | some e => some e
        | Option.none => matchDecAt t p
  else Option.none

def numStep (t : List Char) (p : Nat) : Option (Nat × List Fmt) :=
  (numMatchAt t p).map (fun e => (e, [(p, e - p, Tag.number)]))

/-- Numeric-literal pass of `highlightBlock`. -/
def numPass (t : List Char) : List Fmt :=
  passLoop t (numStep t) 0 (t.length + 1)

/-- Match of `\b[A-Za-z_][A-Za-z0-9_]*\b` at `p` (the trailing boundary
holds automatically at the end of the maximal word-character run). -/
def idSpanAt (t : List Char) (p : Nat) : Option Nat :=
  if (p == 0 || !(wordChar (charAt t (p - 1)))) && identStart (charAt t p) then
    some (p + 1 + runLen wordChar t (p + 1))
  else Option.none

/-- The reserved-word set `PythonHighlighter.kw`. -/
def kwList : List String :=
  ["False", "await", "else", "import", "pass", "None", "break", "except",
   "in", "raise", "True", "class", "finally", "is", "return", "and",
   "continue", "for", "lambda", "try", "as", "def", "from", "nonlocal",
   "while", "assert", "del", "global", "not", "with", "async", "elif",
   "if", "or", "yield"]

/-- The builtin-name set `PythonHighlighter.builtins`. -/
def builtinList : List String :=
  ["abs", "dict", "help", "min", "setattr", "all", "dir", "hex", "next",
   "slice", "any", "divmod", "id", "object", "sorted", "ascii",
   "enumerate", "input", "oct", "staticmethod", "bin", "eval", "int",
   "open", "str", "bool", "exec", "isinstance", "ord", "sum",
   "bytearray", "filter", "issubclass", "pow", "super", "bytes",
   "float", "iter", "print", "tuple", "callable", "format", "len",
   "property", "type", "chr", "frozenset", "list", "range", "vars",
   "classmethod", "getattr", "locals", "repr", "zip", "compile",
   "globals", "map", "reversed", "__import__", "complex", "hasattr",
   "max", "round"]

def idStep (t : List Char) (p : Nat) : Option (Nat × List Fmt) :=
  (idSpanAt t p).map (fun e =>
    let w := String.mk ((t.drop p).take (e - p))
    (e,
     if kwList.contains w then [(p, e - p, Tag.keyword)]
     else if builtinList.contains w then [(p, e - p, Tag.builtin)]
     else []))

/-- Keyword/builtin identifier pass of `highlightBlock`. -/
def idPass (t : List Char) : List Fmt :=
  passLoop t (idStep t) 0 (t.length + 1)

def funcStep (t : List Char) (p : Nat) : Option (Nat × List Fmt) :=
  (idSpanAt t p).bind (fun e =>
    if charAt t e == '(' then some (e, [(p, e - p, Tag.funcCall)])
    else Option.none)

/-- Function-call pass `\b[A-Za-z_][A-Za-z0-9_]*(?=\()`. -/
def funcPass (t : List Char) : List Fmt :=
  passLoop t (funcStep t) 0 (t.length + 1)

/-- Body of `highlightBlock` after the triple-quote continuation has
been dealt with: `pre` holds the format of a closed continuation span
and `i` the index where the remaining passes resume.  The formats are
listed in `setFormat` call order; the comment span, computed from the
first `#` of `text[i:]` before the string pass runs, is applied last
(and not at all when an unterminated triple quote causes the early
return inside the string loop). -/
def tokenizeFrom (t : List Char) (pre : List Fmt) (i : Nat) : List Fmt × HState :=
  let n := t.length
  let decoF := decoPass t
  let commentStart := findSub t ['#'] i (n + 1)
  let sres := strLoop t i (n + 1)
  match sres.2 with
  | some st => (pre ++ decoF ++ sres.1, st)
  | Option.none =>
    let comF : List Fmt :=
      match commentStart with
      | some c => [(c, n - c, Tag.comment)]
      | Option.none => []
    (pre ++ decoF ++ sres.1 ++ numPass t ++ idPass t ++ funcPass t ++ comF,
     HState.none)

/-- The tokenizer: `PythonHighlighter.highlightBlock` as a pure function
from (line text, entry state) to (formats in call order, exit state). -/
def tokenize (t : List Char) (entry : HState) : List Fmt × HState :=
  let n := t.length
  match entry with
  | HState.none => tokenizeFrom t [] 0
  | HState.tripleS =>
    match findSub t tq1 0 (n + 1) with
    | Option.none => ([(0, n, Tag.string)], HState.tripleS)
    | some e => tokenizeFrom t [(0, e + 3, Tag.string)] (e + 3)
  | HState.tripleD =>
    match findSub t tq2 0 (n + 1) with
    | Option.none => ([(0, n, Tag.string)], HState.tripleD)
    | some e => tokenizeFrom t [(0, e + 3, Tag.string)] (e + 3)

/-- Final classification of position `i`: the tag of the last format
covering `i`, `Tag.plain` when none does (Qt `setFormat` overwrites). -/
def applyFmt (fs : List Fmt) (i : Nat) : Tag :=
  fs.foldl (fun acc f => if f.1 ≤ i ∧ i < f.1 + f.2.1 then f.2.2 else acc)
    Tag.plain

/-- Tag of the last format of `fs` covering position `i`, if any. -/
def lastCover : List Fmt → Nat → Option Tag
  | [], _ => Option.none
  | f :: fs, i =>
    match lastCover fs i with
    | some tg => some tg
    | Option.none =>
      if f.1 ≤ i ∧ i < f.1 + f.2.1 then some f.2.2 else Option.none

/-! The diff engine (`DiffHighlighter.highlight`).  A document is the
list of its blocks' texts; `findBlockByNumber i` is valid exactly when
`i` is below the block count, and an invalid block contributes empty
text. -/

/-- Python whitespace for `str.rstrip()` (ASCII part; block texts never
contain a newline but it is included for fidelity). -/
def isPySpace (c : Char) : Bool :=
  c == ' ' || c == '\t' || c == '\n' || c == '\r' || c == '\x0b' || c == '\x0c'

/-- Python `s.rstrip()`. -/
def pyRstrip (s : List Char) : List Char :=
  (s.reverse.dropWhile isPySpace).reverse

/-- Text of block `i` of a document; empty when the block is invalid. -/
def lineAt (d : List (List Char)) (i : Nat) : List Char := d.getD i []

/-- Result of `DiffHighlighter.highlight`: the returned `changed` flag
and, per side, the block numbers that received a full-line extra
selection (in append order). -/
structure DiffOut where
  changed : Bool
  leftSels : List Nat
  rightSels : List Nat
deriving DecidableEq, Repr

/-- One iteration of the block-comparison loop of
`DiffHighlighter.highlight`. -/
def diffStep (l r : List (List Char)) (acc : DiffOut) (i : Nat) : DiffOut :=
  let lt := lineAt l i
  let rt := lineAt r i
  if pyRstrip lt ≠ pyRstrip rt then
    { changed := true,
      leftSels := acc.leftSels ++
        (if pyRstrip lt ≠ [] ∧ i < l.length then [i] else []),
      rightSels := acc.rightSels ++
        (if pyRstrip rt ≠ [] ∧ i < r.length then [i] else []) }
  else acc

/-- The block-comparison loop of `DiffHighlighter.highlight`:
`for block_num in range(max(left_block_count, right_block_count))`. -/
def diffHighlight (l r : List (List Char)) : DiffOut :=
  (List.range (max l.length r.length)).foldl (diffStep l r)
    { changed := false, leftSels := [], rightSels := [] }

/-! Editor highlight-layer state (`CodeEditor`).  The three extra
selection layers are the current-line selection rebuilt by
`highlight_current_line`, `_search_highlights` and `_diff_highlights`;
`setExtraSelections` installs their concatenation. -/

/-- An extra selection: the cursor range it covers (the formats are
fixed per layer and carry no state). -/
structure ExtraSel where
  selStart : Nat
  selEnd : Nat
deriving DecidableEq, Repr

/-- Highlight-relevant state of a `CodeEditor`. -/
structure Editor where
  readOnly : Bool
  cursorPos : Nat
  searchHighlights : List ExtraSel
  diffHighlights : List ExtraSel
  extraSelections : List ExtraSel
deriving DecidableEq, Repr

/-- `CodeEditor.highlight_current_line`: read-only editors install just
the search and diff layers, otherwise a full-width selection at the
cursor (with cleared selection) is prepended. -/
def highlightCurrentLine (e : Editor) : Editor :=
  if e.readOnly then
    { e with extraSelections := e.searchHighlights ++ e.diffHighlights }
  else
    { e with extraSelections :=
        { selStart := e.cursorPos, selEnd := e.cursorPos } ::
          (e.searchHighlights ++ e.diffHighlights) }

/-- `CodeEditor.clear_search_highlight`. -/
def clearSearchHighlight (e : Editor) : Editor :=
  highlightCurrentLine { e with searchHighlights := [] }

/-- The per-editor body of `DiffHighlighter.clear_both` (every editor in
the panes is a `CodeEditor`, so `_diff_highlights` exists and
`highlight_current_line` is called). -/
def clearDiffHighlights (e : Editor) : Editor :=
  highlightCurrentLine { e with diffHighlights := [] }

/-- `DiffHighlighter.clear_both(left, right)`. -/
def clearBoth (l r : Editor) : Editor × Editor :=
  (clearDiffHighlights l, clearDiffHighlights r)

/-! The find-all search loop of `EditorMain._find_all`. -/

/-- The `while True` loop of `_find_all`: collect `doc_text.find(text,
pos)` results, restarting one position after each match so that
overlapping occurrences are found. -/
def findAllLoop (d pat : List Char) : Nat → Nat → List Nat
  | _, 0 => []
  | pos, fuel + 1 =>
    match findSub d pat pos (d.length + 1) with
    | some p => p :: findAllLoop d pat (p + 1) fuel
    | Option.none => []

/-- Match start offsets collected by `_find_all` for a non-empty query
(the method returns early on an empty query). -/
def findAll (d pat : List Char) : List Nat :=
  findAllLoop d pat 0 (d.length + 2)

/-- The per-index comparison outcome of the diff loop, as a Boolean. -/
def lineNeqB (l r : List (List Char)) (i : Nat) : Bool :=
  decide (pyRstrip (lineAt l i) ≠ pyRstrip (lineAt r i))

/-- Condition under which the diff loop appends a left-side selection
for index `i`. -/
def selCondL (l r : List (List Char)) (i : Nat) : Bool :=
  lineNeqB l r i && decide (pyRstrip (lineAt l i) ≠ []) && decide (i < l.length)

/-- Condition under which the diff loop appends a right-side selection
for index `i`. -/
def selCondR (l r : List (List Char)) (i : Nat) : Bool :=
  lineNeqB l r i && decide (pyRstrip (lineAt r i) ≠ []) && decide (i < r.length)

/-! Concrete lines used by the spec's worked examples. -/

/-- The spec's comment example line. -/
def exComment : List Char := ("x = \"a#b\"  # real comment").data

/-- A reserved word and a digit sequence inside a string literal. -/
def exKwString : List Char := ("x = \"for 123\"").data

/-- A reserved word alone inside a string literal. -/
def exForString : List Char := ("\"for\"").data

/-- The spec's function-call example line. -/
def exPrintCall : List Char := ("print(1)").data

/-- A bare builtin name. -/
def exPrintBare : List Char := ("print").data

/-- An identifier followed by a parenthesis inside a comment. -/
def exHashCall : List Char := ("#a(").data

/-- A lone opening triple quote. -/
def exTriple : List Char := ['\'', '\'', '\'']

/-- Six single quotes: a closing triple quote immediately followed by a
new opening one. -/
def exSixQuotes : List Char := ['\'', '\'', '\'', '\'', '\'', '\'']

/-! Small Boolean helpers used to take conjunction guards apart. -/

theorem band_true {a b : Bool} (h : (a && b) = true) : a = true ∧ b = true := by
  cases a <;> cases b <;> simp_all

theorem bor_true {a b : Bool} (h : (a || b) = true) : a = true ∨ b = true := by
  cases a <;> cases b <;> simp_all

/-! Properties of format application: the final classification of a
position is the tag of the last `setFormat` call covering it. -/

theorem foldl_applyStep (i : Nat) :
    ∀ (fs : List Fmt) (a : Tag),
      fs.foldl (fun acc f => if f.1 ≤ i ∧ i < f.1 + f.2.1 then f.2.2 else acc) a
        = (lastCover fs i).getD a := by
  intro fs
  induction fs with
  | nil => intro a; rfl
  | cons f fs ih =>
    intro a
    simp only [List.foldl_cons, lastCover]
    rw [ih]
    cases h : lastCover fs i with
    | none =>
      by_cases hc : f.1 ≤ i ∧ i < f.1 + f.2.1 <;> simp [hc]
    | some tg => simp

theorem applyFmt_eq (fs : List Fmt) (i : Nat) :
    applyFmt fs i = (lastCover fs i).getD Tag.plain :=
  foldl_applyStep i fs Tag.plain

theorem lastCover_append_some (l1 l2 : List Fmt) (i : Nat) (tg : Tag)
    (h : lastCover l2 i = some tg) : lastCover (l1 ++ l2) i = some tg := by
  induction l1 with
  | nil => simpa using h
  | cons f l1 ih => simp only [List.cons_append, lastCover, List.append_eq, ih]

theorem lastCover_append_none (l1 l2 : List Fmt) (i : Nat)
    (h : lastCover l2 i = Option.none) :
    lastCover (l1 ++ l2) i = lastCover l1 i := by
  induction l1 with
  | nil => simpa using h
  | cons f l1 ih => simp only [List.cons_append, lastCover, List.append_eq, ih]

theorem applyFmt_append (l1 l2 : List Fmt) (i : Nat) :
    applyFmt (l1 ++ l2) i = (lastCover l2 i).getD (applyFmt l1 i) := by
  rw [applyFmt_eq, applyFmt_eq]
  cases h : lastCover l2 i with
  | some tg => rw [lastCover_append_some l1 l2 i tg h]; rfl
  | none => rw [lastCover_append_none l1 l2 i h]; rfl

theorem lastCover_eq_none (fs : List Fmt) (i : Nat) :
    lastCover fs i = Option.none ↔
      ∀ f ∈ fs, ¬(f.1 ≤ i ∧ i < f.1 + f.2.1) := by
  induction fs with
  | nil => simp [lastCover]
  | cons f fs ih =>
    constructor
    · intro h g hg
      simp only [lastCover] at h
      cases hf : lastCover fs i with
      | some tg => rw [hf] at h; cases h
      | none =>
        rw [hf] at h
        rcases List.mem_cons.mp hg with rfl | hg'
        · intro hc; rw [if_pos hc] at h; cases h
        · exact ih.mp hf g hg'
    · intro hall
      have hrest : lastCover fs i = Option.none :=
        ih.mpr (fun g hg => hall g (List.mem_cons_of_mem _ hg))
      simp only [lastCover, hrest]
      exact if_neg (hall f (List.mem_cons_self f fs))

theorem lastCover_mem (fs : List Fmt) (i : Nat) (tg : Tag)
    (h : lastCover fs i = some tg) :
    ∃ f ∈ fs, f.2.2 = tg ∧ f.1 ≤ i ∧ i < f.1 + f.2.1 := by
  induction fs with
  | nil => cases h
  | cons f fs ih =>
    simp only [lastCover] at h
    cases hf : lastCover fs i with
    | some tg' =>
      rw [hf] at h
      cases h
      obtain ⟨g, hg, hgt, hgc⟩ := ih hf
      exact ⟨g, List.mem_cons_of_mem _ hg, hgt, hgc⟩
    | none =>
      rw [hf] at h
      by_cases hc : f.1 ≤ i ∧ i < f.1 + f.2.1
      · rw [if_pos hc] at h
        cases h
        exact ⟨f, List.mem_cons_self _ _, rfl, hc⟩
      · rw [if_neg hc] at h; cases h

theorem lastCover_all_tag (fs : List Fmt) (i : Nat) (tg : Tag)
    (hall : ∀ f ∈ fs, f.2.2 = tg) (f0 : Fmt) (hf0 : f0 ∈ fs)
    (hcov : f0.1 ≤ i ∧ i < f0.1 + f0.2.1) :
    lastCover fs i = some tg := by
  cases h : lastCover fs i with
  | some tg' =>
    obtain ⟨g, hg, hgt, _⟩ := lastCover_mem fs i tg' h
    rw [← hgt, hall g hg]
  | none =>
    exact absurd hcov ((lastCover_eq_none fs i).mp h f0 hf0)

/-! Properties of substring matching and `findSub`. -/

theorem matchAt_le {t pat : List Char} {k : Nat} (hpat : pat ≠ [])
    (h : matchAt t pat k = true) : k + pat.length ≤ t.length := by
  unfold matchAt at h
  have heq : (t.drop k).take pat.length = pat := by
    exact eq_of_beq h
  have hlen := congrArg List.length heq
  simp only [List.length_take, List.length_drop] at hlen
  have hpos : 0 < pat.length := List.length_pos.mpr hpat
  omega

theorem findSub_some (t pat : List Char) :
    ∀ fuel i j, findSub t pat i fuel = some j →
      i ≤ j ∧ j + pat.length ≤ t.length ∧ matchAt t pat j = true := by
  intro fuel
  induction fuel with
  | zero => intro i j h; simp [findSub] at h
  | succ fuel ih =>
    intro i j h
    simp only [findSub] at h
    by_cases h1 : i + pat.length ≤ t.length
    · rw [if_pos h1] at h
      by_cases h2 : matchAt t pat i = true
      · rw [if_pos h2] at h
        cases h
        exact ⟨Nat.le_refl _, h1, h2⟩
      · rw [if_neg h2] at h
        have hrec := ih (i + 1) j h
        exact ⟨Nat.le_of_succ_le hrec.1, hrec.2.1, hrec.2.2⟩
    · rw [if_neg h1] at h; cases h

theorem findSub_min (t pat : List Char) :
    ∀ fuel i j, findSub t pat i fuel = some j →
      ∀ k, i ≤ k → k < j → matchAt t pat k = false := by
  intro fuel
  induction fuel with
  | zero => intro i j h; simp [findSub] at h
  | succ fuel ih =>
    intro i j h k hik hkj
    simp only [findSub] at h
    by_cases h1 : i + pat.length ≤ t.length
    · rw [if_pos h1] at h
      by_cases h2 : matchAt t pat i = true
      · rw [if_pos h2] at h
        cases h
        omega
      · rw [if_neg h2] at h
        rcases Nat.eq_or_lt_of_le hik with rfl | hlt
        · exact Bool.eq_false_iff.mpr h2
        · exact ih (i + 1) j h k hlt hkj
    · rw [if_neg h1] at h; cases h

theorem findSub_none (t pat : List Char) (hpat : pat ≠ []) :
    ∀ fuel i, findSub t pat i fuel = Option.none →
      t.length + 1 ≤ fuel + i → ∀ k, i ≤ k → matchAt t pat k = false := by
  intro fuel
  induction fuel with
  | zero =>
    intro i _ hfuel k hik
    cases hmt : matchAt t pat k with
    | false => rfl
    | true =>
      have hpos : 0 < pat.length := List.length_pos.mpr hpat
      exact absurd (matchAt_le hpat hmt) (by omega)
  | succ fuel ih =>
    intro i h hfuel k hik
    simp only [findSub] at h
    by_cases h1 : i + pat.length ≤ t.length
    · rw [if_pos h1] at h
      by_cases h2 : matchAt t pat i = true
      · rw [if_pos h2] at h; cases h
      · rw [if_neg h2] at h
        rcases Nat.eq_or_lt_of_le hik with rfl | hlt
        · simpa using h2
        · exact ih (i + 1) h (by omega) k hlt
    · cases hmt : matchAt t pat k with
      | false => rfl
      | true =>
        have hpos : 0 < pat.length := List.length_pos.mpr hpat
        exact absurd (matchAt_le hpat hmt) (by omega)

/-! Reading past the end of the line. -/

theorem charAt_of_le (t : List Char) (i : Nat) (h : t.length ≤ i) :
    charAt t i = Char.ofNat 0 :=
  List.getD_eq_default _ _ h

theorem lt_of_charAt (t : List Char) (i : Nat) (P : Char → Bool)
    (hP : P (Char.ofNat 0) = false) (h : P (charAt t i) = true) :
    i < t.length := by
  by_contra hc
  push_neg at hc
  rw [charAt_of_le t i hc, hP] at h
  cases h

theorem runLen_le (p : Char → Bool) (t : List Char) (i : Nat) :
    runLen p t i ≤ t.length - i := by
  unfold runLen
  calc ((t.drop i).takeWhile p).length ≤ (t.drop i).length :=
        (List.takeWhile_sublist p).length_le
    _ = t.length - i := List.length_drop i t

theorem scanStr_ge (t : List Char) (q : Char) :
    ∀ fuel j esc, j ≤ scanStr t q j esc fuel := by
  intro fuel
  induction fuel with
  | zero => intro j esc; exact Nat.le_refl _
  | succ fuel ih =>
    intro j esc
    simp only [scanStr]
    split
    · split
      · exact Nat.le_trans (Nat.le_succ j) (ih (j + 1) false)
      · split
        · exact Nat.le_trans (Nat.le_succ j) (ih (j + 1) true)
        · split
          · exact Nat.le_succ j
          · exact Nat.le_trans (Nat.le_succ j) (ih (j + 1) esc)
    · exact Nat.le_refl j

theorem scanStr_le (t : List Char) (q : Char) :
    ∀ fuel j esc, j ≤ t.length → scanStr t q j esc fuel ≤ t.length := by
  intro fuel
  induction fuel with
  | zero => intro j esc hj; exact hj
  | succ fuel ih =>
    intro j esc hj
    simp only [scanStr]
    split
    · rename_i hjn
      split
      · exact ih (j + 1) false hjn
      · split
        · exact ih (j + 1) true hjn
        · split
          · exact hjn
          · exact ih (j + 1) esc hjn
    · exact hj

/-! Positions of string-pattern matches. -/

theorem quoteAt_lt (t : List Char) (p : Nat) (k : QKind)
    (h : quoteAt t p = some k) : p < t.length := by
  unfold quoteAt at h
  split at h
  · rename_i h1
    have hle := @matchAt_le t tq1 p (by decide) h1
    have h3 : tq1.length = 3 := rfl
    omega
  · split at h
    · rename_i h1
      have hle := @matchAt_le t tq2 p (by decide) h1
      have h3 : tq2.length = 3 := rfl
      omega
    · split at h
      · rename_i h1
        exact lt_of_charAt t p (fun c => c == '\'') (by decide) h1
      · split at h
        · rename_i h1
          exact lt_of_charAt t p (fun c => c == '"') (by decide) h1
        · cases h

theorem strMatchAt_some (t : List Char) (p pl : Nat) (k : QKind)
    (h : strMatchAt t p = some (pl, k)) :
    quoteAt t (p + pl) = some k ∧ pl ≤ 1 := by
  unfold strMatchAt at h
  split at h
  · cases hq : quoteAt t (p + 1) with
    | some k' =>
      rw [hq] at h
      cases h
      exact ⟨hq, Nat.le_refl 1⟩
    | none => rw [hq] at h; cases h
  · cases hq : quoteAt t p with
    | some k' =>
      rw [hq] at h
      simp only [Option.map_some', Option.some.injEq, Prod.mk.injEq] at h
      obtain ⟨rfl, rfl⟩ := h
      exact ⟨by simpa using hq, by omega⟩
    | none => rw [hq] at h; cases h

theorem patSearch_some (t : List Char) :
    ∀ fuel p0 s pl k, patSearch t p0 fuel = some (s, pl, k) →
      p0 ≤ s ∧ s < t.length ∧ strMatchAt t s = some (pl, k) := by
  intro fuel
  induction fuel with
  | zero => intro p0 s pl k h; simp [patSearch] at h
  | succ fuel ih =>
    intro p0 s pl k h
    simp only [patSearch] at h
    by_cases h1 : p0 < t.length
    · rw [if_pos h1] at h
      cases hm : strMatchAt t p0 with
      | some plk =>
        obtain ⟨pl', k'⟩ := plk
        rw [hm] at h
        cases h
        exact ⟨Nat.le_refl _, h1, hm⟩
      | none =>
        rw [hm] at h
        have hrec := ih (p0 + 1) s pl k h
        exact ⟨Nat.le_of_succ_le hrec.1, hrec.2.1, hrec.2.2⟩
    · rw [if_neg h1] at h; cases h

theorem fBraces_bound (t : List Char) (s e : Nat) (f : Fmt)
    (hf : f ∈ fBraces t s e) : f.1 + f.2.1 ≤ s + (e - s) := by
  unfold fBraces at hf
  obtain ⟨k, hk, hgk⟩ := List.mem_filterMap.mp hf
  have hkr : s ≤ k ∧ k < s + (e - s) := List.mem_range'_1.mp hk
  split at hgk
  · cases hgk
    simpa using hkr.2
  · cases hgk

/-! The string loop: bounds on its spans and the shape of its early
exit state. -/

theorem strLoop_early (t : List Char) :
    ∀ fuel idx st, (strLoop t idx fuel).2 = some st → st ≠ HState.none := by
  intro fuel
  induction fuel with
  | zero => intro idx st h; simp [strLoop] at h
  | succ fuel ih =>
    intro idx st h
    simp only [strLoop] at h
    cases hp : patSearch t idx (t.length + 1) with
    | none => rw [hp] at h; cases h
    | some spk =>
      obtain ⟨s, pl, k⟩ := spk
      simp only [hp] at h
      cases k with
      | ts =>
        cases hfind : findSub t tq1 (s + 3) (t.length + 1) with
        | none =>
          simp only [hfind] at h
          cases h
          simp
        | some e =>
          simp only [hfind] at h
          exact ih (e + 3) st h
      | td =>
        cases hfind : findSub t tq2 (s + 3) (t.length + 1) with
        | none =>
          simp only [hfind] at h
          cases h
          simp
        | some e =>
          simp only [hfind] at h
          exact ih (e + 3) st h
      | sq => exact ih _ st h
      | dq => exact ih _ st h

theorem strLoop_bound (t : List Char) :
    ∀ fuel idx f, f ∈ (strLoop t idx fuel).1 → f.1 + f.2.1 ≤ t.length := by
  intro fuel
  induction fuel with
  | zero => intro idx f hf; simp [strLoop] at hf
  | succ fuel ih =>
    intro idx f hf
    simp only [strLoop] at hf
    cases hp : patSearch t idx (t.length + 1) with
    | none => rw [hp] at hf; simp at hf
    | some spk =>
      obtain ⟨s, pl, k⟩ := spk
      simp only [hp] at hf
      obtain ⟨hps, hsn, hsm⟩ := patSearch_some t _ idx s pl k hp
      obtain ⟨hquote, hpl⟩ := strMatchAt_some t s pl k hsm
      cases k with
      | ts =>
        cases hfind : findSub t tq1 (s + 3) (t.length + 1) with
        | none =>
          simp only [hfind, List.mem_singleton] at hf
          subst hf
          simp only []
          omega
        | some e =>
          simp only [hfind] at hf
          obtain ⟨hse, hen, _⟩ := findSub_some t tq1 _ _ _ hfind
          have h3 : tq1.length = 3 := rfl
          rcases List.mem_cons.mp hf with rfl | hf'
          · simp only []; omega
          · rcases List.mem_append.mp hf' with hb | hr
            · have hbb := fBraces_bound t s (e + 3) f (by
                revert hb
                split
                · exact id
                · intro hb; cases hb)
              omega
            · exact ih (e + 3) f hr
      | td =>
        cases hfind : findSub t tq2 (s + 3) (t.length + 1) with
        | none =>
          simp only [hfind, List.mem_singleton] at hf
          subst hf
          simp only []
          omega
        | some e =>
          simp only [hfind] at hf
          obtain ⟨hse, hen, _⟩ := findSub_some t tq2 _ _ _ hfind
          have h3 : tq2.length = 3 := rfl
          rcases List.mem_cons.mp hf with rfl | hf'
          · simp only []; omega
          · rcases List.mem_append.mp hf' with hb | hr
            · have hbb := fBraces_bound t s (e + 3) f (by
                revert hb
                split
                · exact id
                · intro hb; cases hb)
              omega
            · exact ih (e + 3) f hr
      | sq =>
        have hqlt : s + pl < t.length := quoteAt_lt t (s + pl) QKind.sq hquote
        have hjge := scanStr_ge t '\'' (t.length + 1) (s + 1 + pl) false
        have hjle := scanStr_le t '\'' (t.length + 1) (s + 1 + pl) false (by omega)
        rcases List.mem_cons.mp hf with rfl | hf'
        · simp only []; omega
        · rcases List.mem_append.mp hf' with hb | hr
          · have hbb := fBraces_bound t s
              (scanStr t '\'' (s + 1 + pl) false (t.length + 1)) f (by
                revert hb
                split
                · exact id
                · intro hb; cases hb)
            omega
          · exact ih _ f hr
      | dq =>
        have hqlt : s + pl < t.length := quoteAt_lt t (s + pl) QKind.dq hquote
        have hjge := scanStr_ge t '"' (t.length + 1) (s + 1 + pl) false
        have hjle := scanStr_le t '"' (t.length + 1) (s + 1 + pl) false (by omega)
        rcases List.mem_cons.mp hf with rfl | hf'
        · simp only []; omega
        · rcases List.mem_append.mp hf' with hb | hr
          · have hbb := fBraces_bound t s
              (scanStr t '"' (s + 1 + pl) false (t.length + 1)) f (by
                revert hb
                split
                · exact id
                · intro hb; cases hb)
            omega
          · exact ih _ f hr

/-! The finditer driver preserves per-match properties of its step. -/

theorem passLoop_forall (t : List Char) (step : Nat → Option (Nat × List Fmt))
    (P : Fmt → Prop)
    (hstep : ∀ p e fs, p < t.length → step p = some (e, fs) → ∀ f ∈ fs, P f) :
    ∀ fuel p f, f ∈ passLoop t step p fuel → P f := by
  intro fuel
  induction fuel with
  | zero => intro p f hf; simp [passLoop] at hf
  | succ fuel ih =>
    intro p f hf
    simp only [passLoop] at hf
    by_cases h1 : p < t.length
    · rw [if_pos h1] at hf
      cases hs : step p with
      | some efs =>
        obtain ⟨e, fs⟩ := efs
        simp only [hs] at hf
        rcases List.mem_append.mp hf with hf1 | hf2
        · exact hstep p e fs h1 hs f hf1
        · exact ih e f hf2
      | none =>
        simp only [hs] at hf
        exact ih (p + 1) f hf
    · rw [if_neg h1] at hf; simp at hf

/-! Span bounds for the four finditer passes. -/

theorem decoStep_bound (t : List Char) (p e : Nat) (fs : List Fmt)
    (h : decoStep t p = some (e, fs)) :
    ∀ f ∈ fs, f.1 + f.2.1 ≤ t.length := by
  unfold decoStep decoSpanAt at h
  split at h
  · rename_i hcond
    simp only [Option.map_some', Option.some.injEq, Prod.mk.injEq] at h
    obtain ⟨rfl, rfl⟩ := h
    intro f hf
    simp only [List.mem_singleton] at hf
    subst hf
    have h2 : identStart (charAt t (p + 1)) = true := (band_true hcond).2
    have hlt : p + 1 < t.length := lt_of_charAt t (p + 1) identStart (by decide) h2
    have hr := runLen_le (fun c => wordChar c || c == '.') t (p + 2)
    simp only []
    omega
  · cases h

theorem expEnd_le (t : List Char) (q e : Nat) (h : expEnd t q = some e) :
    e ≤ t.length := by
  simp only [expEnd] at h
  split at h
  · generalize hQ : (if charAt t (q + 1) == '+' || charAt t (q + 1) == '-'
        then q + 2 else q + 1) = Q at h
    split at h
    · rename_i hd
      cases h
      have hlt : Q < t.length := lt_of_charAt t Q Char.isDigit (by decide) hd
      have hr := runLen_le digitU t (Q + 1)
      omega
    · cases h
  · cases h

theorem matchRadixAt_le (t : List Char) (p : Nat) (pred : Char → Bool)
    (c1 c2 : Char) (e : Nat) (hc1 : Char.ofNat 0 ≠ c1) (hc2 : Char.ofNat 0 ≠ c2)
    (h : matchRadixAt t p pred c1 c2 = some e) : e ≤ t.length := by
  simp only [matchRadixAt] at h
  split at h
  · rename_i hc
    split at h
    · cases h
      have h2 : (charAt t (p + 1) == c1 || charAt t (p + 1) == c2) = true :=
        (band_true hc).2
      have hlt : p + 1 < t.length := by
        rcases bor_true h2 with h3 | h3
        · exact lt_of_charAt t (p + 1) (fun c => c == c1)
            (beq_eq_false_iff_ne.mpr hc1) h3
        · exact lt_of_charAt t (p + 1) (fun c => c == c2)
            (beq_eq_false_iff_ne.mpr hc2) h3
      have hr := runLen_le pred t (p + 2)
      omega
    · cases h
  · cases h

theorem decCands_le (t : List Char) (p : Nat) (hp : p < t.length) :
    ∀ x ∈ decCands t p, x ≤ t.length := by
  intro x hx
  simp only [decCands] at hx
  have hbe := runLen_le digitU t (p + 1)
  rcases List.mem_append.mp hx with hx12 | hxbe
  · rcases List.mem_append.mp hx12 with hx1 | hx2
    · split at hx1
      · rename_i hfr
        have hdig : (charAt t (p + 1 + runLen digitU t (p + 1) + 1)).isDigit = true :=
          (band_true hfr).2
        have hlt2 : p + 1 + runLen digitU t (p + 1) + 1 < t.length :=
          lt_of_charAt t _ Char.isDigit (by decide) hdig
        have hfe := runLen_le digitU t (p + 1 + runLen digitU t (p + 1) + 2)
        rcases List.mem_append.mp hx1 with hx3 | hx4
        · cases hexp : expEnd t (p + 1 + runLen digitU t (p + 1) + 2 +
              runLen digitU t (p + 1 + runLen digitU t (p + 1) + 2)) with
          | some e1 =>
            rw [hexp] at hx3
            simp only [List.mem_singleton] at hx3
            subst hx3
            exact expEnd_le t _ x hexp
          | none => rw [hexp] at hx3; cases hx3
        · simp only [List.mem_singleton] at hx4
          subst hx4
          omega
      · cases hx1
    · cases hexp : expEnd t (p + 1 + runLen digitU t (p + 1)) with
      | some e2 =>
        rw [hexp] at hx2
        simp only [List.mem_singleton] at hx2
        subst hx2
        exact expEnd_le t _ x hexp
      | none => rw [hexp] at hx2; cases hx2
  · simp only [List.mem_singleton] at hxbe
    subst hxbe
    omega

theorem matchDecAt_le (t : List Char) (p e : Nat) (h : matchDecAt t p = some e) :
    e ≤ t.length := by
  simp only [matchDecAt] at h
  split at h
  · rename_i hd
    have hp : p < t.length := lt_of_charAt t p Char.isDigit (by decide) hd
    exact decCands_le t p hp e (List.mem_of_find?_eq_some h)
  · cases h

theorem numMatchAt_le (t : List Char) (p e : Nat) (h : numMatchAt t p = some e) :
    e ≤ t.length := by
  simp only [numMatchAt] at h
  split at h
  · cases hx : matchRadixAt t p hexU 'x' 'X' with
    | some e' =>
      rw [hx] at h
      cases h
      exact matchRadixAt_le t p hexU 'x' 'X' e (by decide) (by decide) hx
    | none =>
      rw [hx] at h
      cases hb : matchRadixAt t p binU 'b' 'B' with
      | some e' =>
        rw [hb] at h
        cases h
        exact matchRadixAt_le t p binU 'b' 'B' e (by decide) (by decide) hb
      | none =>
        rw [hb] at h
        cases ho : matchRadixAt t p octU 'o' 'O' with
        | some e' =>
          rw [ho] at h
          cases h
          exact matchRadixAt_le t p octU 'o' 'O' e (by decide) (by decide) ho
        | none =>
          rw [ho] at h
          exact matchDecAt_le t p e h
  · cases h

theorem numStep_bound (t : List Char) (p e : Nat) (fs : List Fmt)
    (hp : p < t.length)
    (h : numStep t p = some (e, fs)) : ∀ f ∈ fs, f.1 + f.2.1 ≤ t.length := by
  unfold numStep at h
  cases hm : numMatchAt t p with
  | some e' =>
    rw [hm] at h
    simp only [Option.map_some', Option.some.injEq, Prod.mk.injEq] at h
    obtain ⟨rfl, rfl⟩ := h
    intro f hf
    simp only [List.mem_singleton] at hf
    subst hf
    have hmle := numMatchAt_le t p e' hm
    simp only []
    omega
  | none => rw [hm] at h; cases h

theorem idSpanAt_le (t : List Char) (p e : Nat) (h : idSpanAt t p = some e) :
    p ≤ e ∧ e ≤ t.length := by
  simp only [idSpanAt] at h
  split at h
  · rename_i hc
    cases h
    have h2 : identStart (charAt t p) = true := (band_true hc).2
    have hp : p < t.length := lt_of_charAt t p identStart (by decide) h2
    have hr := runLen_le wordChar t (p + 1)
    omega
  · cases h

theorem idStep_bound (t : List Char) (p e : Nat) (fs : List Fmt)
    (h : idStep t p = some (e, fs)) : ∀ f ∈ fs, f.1 + f.2.1 ≤ t.length := by
  unfold idStep at h
  cases hm : idSpanAt t p with
  | some e' =>
    rw [hm] at h
    simp only [Option.map_some', Option.some.injEq, Prod.mk.injEq] at h
    obtain ⟨rfl, hfs⟩ := h
    obtain ⟨hpe, hen⟩ := idSpanAt_le t p e' hm
    intro f hf
    rw [← hfs] at hf
    split at hf
    · simp only [List.mem_singleton] at hf
      subst hf
      simp only []
      omega
    · split at hf
      · simp only [List.mem_singleton] at hf
        subst hf
        simp only []
        omega
      · cases hf
  | none => rw [hm] at h; cases h

theorem funcStep_bound (t : List Char) (p e : Nat) (fs : List Fmt)
    (h : funcStep t p = some (e, fs)) : ∀ f ∈ fs, f.1 + f.2.1 ≤ t.length := by
  unfold funcStep at h
  cases hm : idSpanAt t p with
  | some e' =>
    rw [hm] at h
    simp only [Option.some_bind] at h
    split at h
    · simp only [Option.some.injEq, Prod.mk.injEq] at h
      obtain ⟨rfl, rfl⟩ := h
      obtain ⟨hpe, hen⟩ := idSpanAt_le t p e' hm
      intro f hf
      simp only [List.mem_singleton] at hf
      subst hf
      simp only []
      omega
    · cases h
  | none => rw [hm] at h; cases h

theorem funcStep_tag (t : List Char) (p e : Nat) (fs : List Fmt)
    (h : funcStep t p = some (e, fs)) : ∀ f ∈ fs, f.2.2 = Tag.funcCall := by
  unfold funcStep at h
  cases hm : idSpanAt t p with
  | some e' =>
    rw [hm] at h
    simp only [Option.some_bind] at h
    split at h
    · simp only [Option.some.injEq, Prod.mk.injEq] at h
      obtain ⟨rfl, rfl⟩ := h
      intro f hf
      simp only [List.mem_singleton] at hf
      subst hf
      rfl
    · cases h
  | none => rw [hm] at h; cases h

/-! Bounds and tags for whole passes, via the generic driver. -/

theorem decoPass_bound (t : List Char) (f : Fmt) (hf : f ∈ decoPass t) :
    f.1 + f.2.1 ≤ t.length :=
  passLoop_forall t (decoStep t) (fun f => f.1 + f.2.1 ≤ t.length)
    (fun p e fs _ h => decoStep_bound t p e fs h) (t.length + 1) 0 f hf

theorem numPass_bound (t : List Char) (f : Fmt) (hf : f ∈ numPass t) :
    f.1 + f.2.1 ≤ t.length :=
  passLoop_forall t (numStep t) (fun f => f.1 + f.2.1 ≤ t.length)
    (fun p e fs hp h => numStep_bound t p e fs hp h) (t.length + 1) 0 f hf

theorem idPass_bound (t : List Char) (f : Fmt) (hf : f ∈ idPass t) :
    f.1 + f.2.1 ≤ t.length :=
  passLoop_forall t (idStep t) (fun f => f.1 + f.2.1 ≤ t.length)
    (fun p e fs _ h => idStep_bound t p e fs h) (t.length + 1) 0 f hf

theorem funcPass_bound (t : List Char) (f : Fmt) (hf : f ∈ funcPass t) :
    f.1 + f.2.1 ≤ t.length :=
  passLoop_forall t (funcStep t) (fun f => f.1 + f.2.1 ≤ t.length)
    (fun p e fs _ h => funcStep_bound t p e fs h) (t.length + 1) 0 f hf

theorem funcPass_tag (t : List Char) (f : Fmt) (hf : f ∈ funcPass t) :
    f.2.2 = Tag.funcCall :=
  passLoop_forall t (funcStep t) (fun f => f.2.2 = Tag.funcCall)
    (fun p e fs _ h => funcStep_tag t p e fs h) (t.length + 1) 0 f hf

/-! Assembly: every format the tokenizer emits stays inside the line. -/

theorem tokenizeFrom_bound (t : List Char) (pre : List Fmt) (i : Nat)
    (hpre : ∀ f ∈ pre, f.1 + f.2.1 ≤ t.length) :
    ∀ f ∈ (tokenizeFrom t pre i).1, f.1 + f.2.1 ≤ t.length := by
  intro f hf
  simp only [tokenizeFrom] at hf
  cases hs : (strLoop t i (t.length + 1)).2 with
  | some st =>
    simp only [hs] at hf
    rcases List.mem_append.mp hf with hf1 | hf2
    · rcases List.mem_append.mp hf1 with hf3 | hf4
      · exact hpre f hf3
      · exact decoPass_bound t f hf4
    · exact strLoop_bound t (t.length + 1) i f hf2
  | none =>
    simp only [hs] at hf
    rcases List.mem_append.mp hf with hf1 | hfc
    · rcases List.mem_append.mp hf1 with hf2 | hff
      · rcases List.mem_append.mp hf2 with hf3 | hfi
        · rcases List.mem_append.mp hf3 with hf4 | hfn
          · rcases List.mem_append.mp hf4 with hf5 | hfs
            · rcases List.mem_append.mp hf5 with hf6 | hfd
              · exact hpre f hf6
              · exact decoPass_bound t f hfd
            · exact strLoop_bound t (t.length + 1) i f hfs
          · exact numPass_bound t f hfn
        · exact idPass_bound t f hfi
      · exact funcPass_bound t f hff
    · cases hcs : findSub t ['#'] i (t.length + 1) with
      | some c =>
        rw [hcs] at hfc
        simp only [List.mem_singleton] at hfc
        subst hfc
        have hcb := findSub_some t ['#'] (t.length + 1) i c hcs
        have h1 : (['#'] : List Char).length = 1 := rfl
        simp only []
        omega
      | none => rw [hcs] at hfc; cases hfc

/-- Exit-state-preserving decomposition of a NONE-entry tokenization
whose string pass completed: the emitted formats are exactly the passes
in `setFormat` order, the comment span last. -/
theorem tokenize_none_decomp (t : List Char)
    (hexit : (tokenize t HState.none).2 = HState.none) :
    (tokenize t HState.none).1 =
      decoPass t ++ (strLoop t 0 (t.length + 1)).1 ++ numPass t ++
        idPass t ++ funcPass t ++
        (match findSub t ['#'] 0 (t.length + 1) with
         | some c => [(c, t.length - c, Tag.comment)]
         | Option.none => []) := by
  simp only [tokenize, tokenizeFrom] at hexit ⊢
  cases hs : (strLoop t 0 (t.length + 1)).2 with
  | some st =>
    simp only [hs] at hexit
    exact absurd hexit (strLoop_early t (t.length + 1) 0 st hs)
  | none =>
    simp only [hs, List.nil_append]

/-! Characterization of the diff loop. -/

theorem diff_foldl (l r : List (List Char)) :
    ∀ (xs : List Nat) (acc : DiffOut),
      xs.foldl (diffStep l r) acc =
        { changed := acc.changed || xs.any (lineNeqB l r),
          leftSels := acc.leftSels ++ xs.filter (selCondL l r),
          rightSels := acc.rightSels ++ xs.filter (selCondR l r) } := by
  intro xs
  induction xs with
  | nil => intro acc; simp
  | cons i xs ih =>
    intro acc
    simp only [List.foldl_cons, ih, List.any_cons, List.filter_cons]
    by_cases hne : pyRstrip (lineAt l i) ≠ pyRstrip (lineAt r i)
    · have h1 : lineNeqB l r i = true := decide_eq_true hne
      simp only [diffStep, if_pos hne, h1, Bool.true_or, Bool.or_true]
      by_cases hL : pyRstrip (lineAt l i) ≠ [] ∧ i < l.length
      · have hsl : selCondL l r i = true := by
          simp [selCondL, h1, hL.1, hL.2]
        simp only [if_pos hL, hsl, if_pos]
        by_cases hR : pyRstrip (lineAt r i) ≠ [] ∧ i < r.length
        · have hsr : selCondR l r i = true := by
            simp [selCondR, h1, hR.1, hR.2]
          simp only [if_pos hR, hsr, if_pos]
          simp
        · have hsr : selCondR l r i = false := by
            simp only [selCondR, h1, Bool.true_and]
            rcases Decidable.not_and_iff_or_not.mp hR with h | h <;> simp [h]
          simp only [if_neg hR, hsr, Bool.false_eq_true, if_neg, ite_false]
          simp [hsr]
      · have hsl : selCondL l r i = false := by
          simp only [selCondL, h1, Bool.true_and]
          rcases Decidable.not_and_iff_or_not.mp hL with h | h <;> simp [h]
        by_cases hR : pyRstrip (lineAt r i) ≠ [] ∧ i < r.length
        · have hsr : selCondR l r i = true := by
            simp [selCondR, h1, hR.1, hR.2]
          simp [if_neg hL, if_pos hR, hsl, hsr]
        · have hsr : selCondR l r i = false := by
            simp only [selCondR, h1, Bool.true_and]
            rcases Decidable.not_and_iff_or_not.mp hR with h | h <;> simp [h]
          simp [if_neg hL, if_neg hR, hsl, hsr]
    · have h1 : lineNeqB l r i = false := decide_eq_false hne
      have hsl : selCondL l r i = false := by simp [selCondL, h1]
      have hsr : selCondR l r i = false := by simp [selCondR, h1]
      simp [diffStep, if_neg hne, h1, hsl, hsr]

theorem diffHighlight_eq (l r : List (List Char)) :
    diffHighlight l r =
      { changed := (List.range (max l.length r.length)).any (lineNeqB l r),
        leftSels := (List.range (max l.length r.length)).filter (selCondL l r),
        rightSels := (List.range (max l.length r.length)).filter (selCondR l r) } := by
  unfold diffHighlight
  rw [diff_foldl]
  simp

theorem selCondL_iff (l r : List (List Char)) (i : Nat) :
    selCondL l r i = true ↔
      (pyRstrip (lineAt l i) ≠ pyRstrip (lineAt r i) ∧
        pyRstrip (lineAt l i) ≠ [] ∧ i < l.length) := by
  simp [selCondL, lineNeqB, and_assoc]

theorem selCondR_iff (l r : List (List Char)) (i : Nat) :
    selCondR l r i = true ↔
      (pyRstrip (lineAt l i) ≠ pyRstrip (lineAt r i) ∧
        pyRstrip (lineAt r i) ≠ [] ∧ i < r.length) := by
  simp [selCondR, lineNeqB, and_assoc]

theorem count_filter_range (m i : Nat) (p : Nat → Bool) :
    ((List.range m).filter p).count i = if i < m ∧ p i = true then 1 else 0 := by
  have hnd : ((List.range m).filter p).Nodup := (List.nodup_range m).filter p
  by_cases hmem : i ∈ (List.range m).filter p
  · rw [List.count_eq_one_of_mem hnd hmem]
    obtain ⟨hr, hp⟩ := List.mem_filter.mp hmem
    rw [if_pos ⟨List.mem_range.mp hr, hp⟩]
  · rw [List.count_eq_zero_of_not_mem hmem]
    rw [if_neg]
    intro ⟨hlt, hp⟩
    exact hmem (List.mem_filter.mpr ⟨List.mem_range.mpr hlt, hp⟩)

/-! Correctness of the find-all loop. -/

theorem findAllLoop_spec (d pat : List Char) (hpat : pat ≠ []) :
    ∀ fuel pos, d.length + 2 ≤ fuel + pos →
      List.Pairwise (· < ·) (findAllLoop d pat pos fuel) ∧
      (∀ p, p ∈ findAllLoop d pat pos fuel ↔
        (pos ≤ p ∧ matchAt d pat p = true)) := by
  intro fuel
  induction fuel with
  | zero =>
    intro pos hfuel
    have hlen1 : 0 < pat.length := List.length_pos.mpr hpat
    constructor
    · simp only [findAllLoop]
      exact List.Pairwise.nil
    · intro p
      simp only [findAllLoop, List.not_mem_nil, false_iff]
      rintro ⟨hpp, hm⟩
      have := matchAt_le hpat hm
      omega
  | succ fuel ih =>
    intro pos hfuel
    simp only [findAllLoop]
    have hlen1 : 0 < pat.length := List.length_pos.mpr hpat
    cases hfs : findSub d pat pos (d.length + 1) with
    | none =>
      constructor
      · exact List.Pairwise.nil
      · intro p
        simp only [List.not_mem_nil, false_iff]
        rintro ⟨hpp, hm⟩
        have := findSub_none d pat hpat (d.length + 1) pos hfs (by omega) p hpp
        rw [this] at hm
        cases hm
    | some p0 =>
      obtain ⟨hpos, hlen, hm0⟩ := findSub_some d pat (d.length + 1) pos p0 hfs
      have hrec := ih (p0 + 1) (by omega)
      constructor
      · refine List.Pairwise.cons ?_ hrec.1
        intro q hq
        have := (hrec.2 q).mp hq
        omega
      · intro p
        simp only [List.mem_cons]
        constructor
        · rintro (rfl | hp)
          · exact ⟨hpos, hm0⟩
          · have := (hrec.2 p).mp hp
            exact ⟨by omega, this.2⟩
        · rintro ⟨hpp, hm⟩
          rcases Nat.lt_or_ge p p0 with hlt | hge
          · have := findSub_min d pat (d.length + 1) pos p0 hfs p hpp hlt
            rw [this] at hm
            cases hm
          · rcases Nat.eq_or_lt_of_le hge with heq | hgt
            · exact Or.inl heq.symm
            · exact Or.inr ((hrec.2 p).mpr ⟨by omega, hm⟩)

/-! Claim theorems. -/

/-- C1 counterexample: in the line `x = "a#b"  # real comment` the `#`
inside the string literal (index 6) is classified COMMENT, not STRING —
the comment span starts at the first `#` of the raw line, inside the
string span, contradicting the claim that only the trailing
`# real comment` is COMMENT. -/
theorem comment_claims_string_interior_cex :
    applyFmt (tokenize exComment HState.none).1 6 = Tag.comment ∧
      applyFmt (tokenize exComment HState.none).1 6 ≠ Tag.string := by
  refine ⟨by decide, by decide⟩

/-- C1 amended: the comment span starts at the first `#` anywhere in
the line (string spans are not skipped) and runs to line end; it is
applied after every other pass, so whenever a NONE-entry tokenization
completes with exit-state NONE and the line's first `#` is at `c`,
every position from `c` to line end is classified COMMENT. -/
theorem comment_span_covers_line_end (t : List Char) (c : Nat)
    (hexit : (tokenize t HState.none).2 = HState.none)
    (hc : findSub t ['#'] 0 (t.length + 1) = some c)
    (j : Nat) (hcj : c ≤ j) (hjn : j < t.length) :
    applyFmt (tokenize t HState.none).1 j = Tag.comment := by
  rw [tokenize_none_decomp t hexit]
  simp only [hc]
  rw [applyFmt_append]
  have hcb := findSub_some t ['#'] (t.length + 1) 0 c hc
  have h1 : (['#'] : List Char).length = 1 := rfl
  have hone : lastCover [(c, t.length - c, Tag.comment)] j = some Tag.comment := by
    simp only [lastCover]
    refine if_pos ⟨hcj, ?_⟩
    show j < c + (t.length - c)
    omega
  rw [hone]
  rfl

/-- C1 witness: the amended statement applied to the example line, at
position 11 (the start of the trailing comment text). -/
theorem comment_span_covers_line_end_w :
    applyFmt (tokenize exComment HState.none).1 11 = Tag.comment :=
  comment_span_covers_line_end exComment 6 (by decide) (by decide) 11
    (by decide) (by decide)

/-- C3 counterexample: in the line `"for"` position 1 lies inside the
STRING span emitted by the string pass, yet its final classification is
KEYWORD — the keyword pass reclaims positions inside string spans. -/
theorem string_span_reclassified_cex :
    applyFmt ((strLoop exForString 0 (exForString.length + 1)).1) 1 = Tag.string ∧
      applyFmt (tokenize exForString HState.none).1 1 = Tag.keyword := by
  refine ⟨by decide, by decide⟩

/-- C3 amended: token spans of the passes may overlap; the emitted
formats are exactly the passes in `setFormat` order (decorators,
strings, numbers, keywords/builtins, function calls, comment last) and
the final classification of a position is that of the last pass writing
it, so a reserved word or digit sequence strictly inside a string
literal is reclassified (demonstrated on `x = "for 123"`). -/
theorem later_passes_overwrite_string_spans :
    (∀ t : List Char, (tokenize t HState.none).2 = HState.none →
      (tokenize t HState.none).1 =
        decoPass t ++ (strLoop t 0 (t.length + 1)).1 ++ numPass t ++
          idPass t ++ funcPass t ++
          (match findSub t ['#'] 0 (t.length + 1) with
           | some c => [(c, t.length - c, Tag.comment)]
           | Option.none => [])) ∧
    applyFmt ((strLoop exKwString 0 (exKwString.length + 1)).1) 5 = Tag.string ∧
    applyFmt (tokenize exKwString HState.none).1 5 = Tag.keyword ∧
    applyFmt ((strLoop exKwString 0 (exKwString.length + 1)).1) 9 = Tag.string ∧
    applyFmt (tokenize exKwString HState.none).1 9 = Tag.number := by
  refine ⟨fun t h => tokenize_none_decomp t h, by decide, by decide, by decide,
    by decide⟩

/-- C3 witness: the decomposition applied to the line `x = "for 123"`. -/
theorem later_passes_overwrite_string_spans_w :
    (tokenize exKwString HState.none).1 =
      decoPass exKwString ++ (strLoop exKwString 0 (exKwString.length + 1)).1 ++
        numPass exKwString ++ idPass exKwString ++ funcPass exKwString ++
        (match findSub exKwString ['#'] 0 (exKwString.length + 1) with
         | some c => [(c, exKwString.length - c, Tag.comment)]
         | Option.none => []) :=
  later_passes_overwrite_string_spans.1 exKwString (by decide)

/-- C4 counterexample: with entry-state IN_TRIPLE_SINGLE the line
`''''''` contains the closing delimiter `'''`, yet the exit-state is
IN_TRIPLE_SINGLE, not NONE — the remainder reopens an unterminated
triple quote. -/
theorem triple_close_reopen_cex :
    findSub exSixQuotes tq1 0 (exSixQuotes.length + 1) ≠ Option.none ∧
      (tokenize exSixQuotes HState.tripleS).2 = HState.tripleS ∧
      (tokenize exSixQuotes HState.tripleS).2 ≠ HState.none := by
  refine ⟨by decide, by decide, by decide⟩

/-- C4 amended: `'''` alone with entry NONE is one STRING token with
exit IN_TRIPLE_SINGLE; with entry IN_TRIPLE_SINGLE and a closing `'''`
at `e`, the first emitted token is the STRING span through the
delimiter and the carried state resets before the remaining passes run
on the remainder — the final exit-state is NONE exactly when the
remainder does not open a new unterminated triple quote; with no
closing delimiter the whole line is one STRING token and the exit-state
is unchanged. -/
theorem triple_quote_continuation :
    tokenize exTriple HState.none = ([(0, 3, Tag.string)], HState.tripleS) ∧
    (∀ (t : List Char) (e : Nat), findSub t tq1 0 (t.length + 1) = some e →
      (tokenize t HState.tripleS).1.head? = some (0, e + 3, Tag.string) ∧
      ((tokenize t HState.tripleS).2 = HState.none ↔
        (strLoop t (e + 3) (t.length + 1)).2 = Option.none)) ∧
    (∀ t : List Char, findSub t tq1 0 (t.length + 1) = Option.none →
      tokenize t HState.tripleS = ([(0, t.length, Tag.string)], HState.tripleS)) := by
  refine ⟨by decide, ?_, ?_⟩
  · intro t e hfs
    simp only [tokenize, hfs, tokenizeFrom]
    cases hs : (strLoop t (e + 3) (t.length + 1)).2 with
    | some st =>
      simp only [hs]
      refine ⟨by simp, ?_, ?_⟩
      · intro hh
        exact absurd hh (strLoop_early t (t.length + 1) (e + 3) st hs)
      · intro hh
        cases hh
    | none =>
      simp only [hs]
      exact ⟨by simp, by simp⟩
  · intro t hn
    simp only [tokenize, hn]

/-- C4 witness: the amended statement applied to `x'''` (closing at 1)
and to `abc` (no closing delimiter). -/
theorem triple_quote_continuation_w :
    (tokenize (['x', '\'', '\'', '\''] : List Char) HState.tripleS).1.head? =
        some (0, 1 + 3, Tag.string) ∧
      tokenize (("abc").data) HState.tripleS =
        ([(0, (("abc").data : List Char).length, Tag.string)], HState.tripleS) :=
  ⟨(triple_quote_continuation.2.1 ['x', '\'', '\'', '\''] 1 (by decide)).1,
   triple_quote_continuation.2.2 (("abc").data) (by decide)⟩

/-- C5 counterexample: in the line `#a(` the identifier `a` is
immediately followed by `(` yet its final classification is COMMENT,
not FUNCTION_CALL — the comment span is applied after the
function-call pass. -/
theorem funccall_in_comment_cex :
    applyFmt (tokenize exHashCall HState.none).1 1 = Tag.comment ∧
      applyFmt (tokenize exHashCall HState.none).1 1 ≠ Tag.funcCall := by
  refine ⟨by decide, by decide⟩

/-- C5 amended: on a line whose string pass completes, every position
of a function-call match (identifier immediately followed by `(`) that
is not inside the comment span is classified FUNCTION_CALL, overriding
any earlier tag; `print(1)` classifies `print` FUNCTION_CALL and bare
`print` stays BUILTIN. -/
theorem funccall_override_rule :
    (∀ (t : List Char) (p c : Nat) (tg : Tag) (j : Nat),
      (tokenize t HState.none).2 = HState.none →
      (p, c, tg) ∈ funcPass t → p ≤ j → j < p + c →
      (∀ c0, findSub t ['#'] 0 (t.length + 1) = some c0 → j < c0) →
      applyFmt (tokenize t HState.none).1 j = Tag.funcCall) ∧
    applyFmt (tokenize exPrintCall HState.none).1 0 = Tag.funcCall ∧
    applyFmt (tokenize exPrintBare HState.none).1 0 = Tag.builtin := by
  refine ⟨?_, by decide, by decide⟩
  intro t p c tg j hexit hmem hpj hjc hcom
  rw [tokenize_none_decomp t hexit]
  rw [applyFmt_append]
  have hcomN : lastCover (match findSub t ['#'] 0 (t.length + 1) with
      | some c0 => [(c0, t.length - c0, Tag.comment)]
      | Option.none => []) j = Option.none := by
    cases hcs : findSub t ['#'] 0 (t.length + 1) with
    | some c0 =>
      simp only [hcs]
      rw [lastCover_eq_none]
      intro f hf
      simp only [List.mem_singleton] at hf
      subst hf
      show ¬(c0 ≤ j ∧ j < c0 + (t.length - c0))
      rintro ⟨h1, _⟩
      have := hcom c0 hcs
      omega
    | none => simp only [hcs]; rfl
  rw [hcomN]
  simp only [Option.getD_none]
  rw [applyFmt_append]
  have hfc : lastCover (funcPass t) j = some Tag.funcCall :=
    lastCover_all_tag (funcPass t) j Tag.funcCall
      (fun f hf => funcPass_tag t f hf) (p, c, tg) hmem ⟨hpj, hjc⟩
  rw [hfc]
  rfl

/-- C5 witness: the override rule applied to `print(1)` at position 1. -/
theorem funccall_override_rule_w :
    applyFmt (tokenize exPrintCall HState.none).1 1 = Tag.funcCall := by
  have hnone : findSub exPrintCall ['#'] 0 (exPrintCall.length + 1) =
      Option.none := by decide
  exact funccall_override_rule.1 exPrintCall 0 5 Tag.funcCall 1 (by decide)
    (by decide) (by decide) (by decide)
    (fun c0 hc0 => by rw [hnone] at hc0; cases hc0)

/-- C2: the diff reports a change exactly when some index below
`max(leftLineCount, rightLineCount)` has differing right-trimmed texts
(missing lines read as empty); `"foo "` and `"foo"` compare equal;
`["a","b","c"]` against `["a","x","c"]` highlights only index 1 on each
side; `["a","b","c"]` against `["z","a","b","c"]` highlights indices
0-2 left and 0-3 right (positional alignment). -/
theorem diff_marks_iff_rstrip_ne :
    (∀ l r : List (List Char),
      ((diffHighlight l r).changed = true ↔
        ∃ i, i < max l.length r.length ∧
          pyRstrip (lineAt l i) ≠ pyRstrip (lineAt r i))) ∧
    diffHighlight [("foo ").data] [("foo").data] =
      { changed := false, leftSels := [], rightSels := [] } ∧
    diffHighlight [("a").data, ("b").data, ("c").data]
        [("a").data, ("x").data, ("c").data] =
      { changed := true, leftSels := [1], rightSels := [1] } ∧
    diffHighlight [("a").data, ("b").data, ("c").data]
        [("z").data, ("a").data, ("b").data, ("c").data] =
      { changed := true, leftSels := [0, 1, 2], rightSels := [0, 1, 2, 3] } := by
  refine ⟨?_, by decide, by decide, by decide⟩
  intro l r
  rw [diffHighlight_eq]
  show (List.range (max l.length r.length)).any (lineNeqB l r) = true ↔ _
  rw [List.any_eq_true]
  constructor
  · rintro ⟨i, hi, hp⟩
    exact ⟨i, List.mem_range.mp hi, of_decide_eq_true hp⟩
  · rintro ⟨i, hi, hp⟩
    exact ⟨i, List.mem_range.mpr hi, decide_eq_true hp⟩

/-- C8 counterexample: comparing `["x"]` with `[" "]` marks index 0
changed and the right line is non-empty, yet the right side receives no
highlight range — the side condition is emptiness after right-trimming,
not emptiness of the line. -/
theorem whitespace_line_no_highlight_cex :
    diffHighlight [("x").data] [(" ").data] =
      { changed := true, leftSels := [0], rightSels := [] } ∧
      lineAt [(" ").data] 0 ≠ [] := by
  refine ⟨by decide, by decide⟩

/-- C8 amended: at every index marked changed, a side receives exactly
one full-line highlight range when its line exists and its
right-trimmed text is non-empty, and none otherwise — in particular a
changed line consisting only of whitespace receives no highlight. -/
theorem diff_selection_count :
    ∀ (l r : List (List Char)) (i : Nat),
      (diffHighlight l r).leftSels.count i =
        (if i < max l.length r.length ∧
            pyRstrip (lineAt l i) ≠ pyRstrip (lineAt r i) ∧
            pyRstrip (lineAt l i) ≠ [] ∧ i < l.length then 1 else 0) ∧
      (diffHighlight l r).rightSels.count i =
        (if i < max l.length r.length ∧
            pyRstrip (lineAt l i) ≠ pyRstrip (lineAt r i) ∧
            pyRstrip (lineAt r i) ≠ [] ∧ i < r.length then 1 else 0) := by
  intro l r i
  rw [diffHighlight_eq]
  constructor
  · show ((List.range (max l.length r.length)).filter (selCondL l r)).count i = _
    rw [count_filter_range]
    exact if_congr (and_congr_right fun _ => selCondL_iff l r i) rfl rfl
  · show ((List.range (max l.length r.length)).filter (selCondR l r)).count i = _
    rw [count_filter_range]
    exact if_congr (and_congr_right fun _ => selCondR_iff l r i) rfl rfl

/-- C7: clearing search highlights and clearing diff highlights are
idempotent, and on an editor in the freshly-initialized highlight state
(both layers empty, extra selections as installed by
`highlight_current_line`) clearing either layer changes nothing; the
operations are total functions of the editor state, so no invocation
can raise. -/
theorem clear_idempotent_safe :
    (∀ e : Editor,
      clearSearchHighlight (clearSearchHighlight e) = clearSearchHighlight e) ∧
    (∀ l r : Editor,
      clearBoth (clearBoth l r).1 (clearBoth l r).2 = clearBoth l r) ∧
    (∀ e : Editor, e.searchHighlights = [] → e.diffHighlights = [] →
      e.extraSelections = (if e.readOnly then []
        else [{ selStart := e.cursorPos, selEnd := e.cursorPos }]) →
      clearSearchHighlight e = e ∧ clearDiffHighlights e = e) := by
  refine ⟨?_, ?_, ?_⟩
  · intro e
    cases e with
    | mk ro cp sh dh ex =>
      by_cases hro : ro = true <;>
        simp [clearSearchHighlight, highlightCurrentLine, hro]
  · intro l r
    have hcd : ∀ e : Editor,
        clearDiffHighlights (clearDiffHighlights e) = clearDiffHighlights e := by
      intro e
      cases e with
      | mk ro cp sh dh ex =>
        by_cases hro : ro = true <;>
          simp [clearDiffHighlights, highlightCurrentLine, hro]
    simp [clearBoth, hcd]
  · intro e h1 h2 h3
    cases e with
    | mk ro cp sh dh ex =>
      simp only [] at h1 h2 h3
      subst h1
      subst h2
      by_cases hro : ro = true <;>
        simp only [hro] at h3 <;>
        subst h3 <;>
        constructor <;>
        simp [clearSearchHighlight, clearDiffHighlights, highlightCurrentLine, hro]

/-- C7 witness: the no-op statement applied to a fresh non-read-only
editor with no search and no diff highlights. -/
theorem clear_idempotent_safe_w :
    clearSearchHighlight
        { readOnly := false, cursorPos := 0, searchHighlights := [],
          diffHighlights := [],
          extraSelections := [{ selStart := 0, selEnd := 0 }] } =
      { readOnly := false, cursorPos := 0, searchHighlights := [],
        diffHighlights := [],
        extraSelections := [{ selStart := 0, selEnd := 0 }] } :=
  (clear_idempotent_safe.2.2
    { readOnly := false, cursorPos := 0, searchHighlights := [],
      diffHighlights := [],
      extraSelections := [{ selStart := 0, selEnd := 0 }] }
    rfl rfl (by decide)).1

/-- C9: the highlight layers are independent — clearing the search
layer leaves the stored diff ranges unchanged, and clearing the diff
layer leaves the stored search ranges unchanged. -/
theorem clear_layers_independent :
    ∀ e : Editor,
      (clearSearchHighlight e).diffHighlights = e.diffHighlights ∧
      (clearDiffHighlights e).searchHighlights = e.searchHighlights := by
  intro e
  cases e with
  | mk ro cp sh dh ex =>
    constructor <;>
      (by_cases hro : ro = true <;>
        simp [clearSearchHighlight, clearDiffHighlights, highlightCurrentLine, hro])

/-- C6: the tokenizer is a total function of `(lineText, entryState)` —
it is defined by structural recursion with no failure branch — and
every format it emits stays inside the line: `start + count ≤ length`
for every emitted `setFormat` span, for every line and entry state. -/
theorem tokenize_total_inbounds :
    ∀ (t : List Char) (entry : HState) (f : Fmt),
      f ∈ (tokenize t entry).1 → f.1 + f.2.1 ≤ t.length := by
  intro t entry f hf
  cases entry with
  | none =>
    simp only [tokenize] at hf
    exact tokenizeFrom_bound t [] 0 (by intro g hg; cases hg) f hf
  | tripleS =>
    simp only [tokenize] at hf
    cases hfs : findSub t tq1 0 (t.length + 1) with
    | none =>
      simp only [hfs, List.mem_singleton] at hf
      subst hf
      simp
    | some e =>
      simp only [hfs] at hf
      obtain ⟨_, hen, _⟩ := findSub_some t tq1 (t.length + 1) 0 e hfs
      have h3 : tq1.length = 3 := rfl
      refine tokenizeFrom_bound t [(0, e + 3, Tag.string)] (e + 3) ?_ f hf
      intro g hg
      simp only [List.mem_singleton] at hg
      subst hg
      show 0 + (e + 3) ≤ t.length
      omega
  | tripleD =>
    simp only [tokenize] at hf
    cases hfs : findSub t tq2 0 (t.length + 1) with
    | none =>
      simp only [hfs, List.mem_singleton] at hf
      subst hf
      simp
    | some e =>
      simp only [hfs] at hf
      obtain ⟨_, hen, _⟩ := findSub_some t tq2 (t.length + 1) 0 e hfs
      have h3 : tq2.length = 3 := rfl
      refine tokenizeFrom_bound t [(0, e + 3, Tag.string)] (e + 3) ?_ f hf
      intro g hg
      simp only [List.mem_singleton] at hg
      subst hg
      show 0 + (e + 3) ≤ t.length
      omega

/-- C6 witness: the span bound applied to the unterminated line `'`. -/
theorem tokenize_total_inbounds_w :
    (0, 1, Tag.string) ∈ (tokenize (['\''] : List Char) HState.none).1 ∧
      (0 : Nat) + 1 ≤ (['\''] : List Char).length :=
  ⟨by decide,
   tokenize_total_inbounds ['\''] HState.none (0, 1, Tag.string) (by decide)⟩

/-- C10: for a non-empty query the find-all loop returns, in strictly
increasing order, exactly the offsets at which the query occurs in the
document, overlapping occurrences included. -/
theorem findAll_complete_sorted :
    ∀ d pat : List Char, pat ≠ [] →
      List.Pairwise (· < ·) (findAll d pat) ∧
      (∀ p, p ∈ findAll d pat ↔ matchAt d pat p = true) := by
  intro d pat hpat
  have h := findAllLoop_spec d pat hpat (d.length + 2) 0 (by omega)
  refine ⟨h.1, fun p => ?_⟩
  rw [show findAll d pat = findAllLoop d pat 0 (d.length + 2) from rfl]
  rw [h.2 p]
  simp

/-- C10 witness: searching `aa` in `aaa` — overlapping matches at 0
and 1, in order. -/
theorem findAll_complete_sorted_w :
    List.Pairwise (· < ·) (findAll (("aaa").data) (("aa").data)) ∧
      (1 ∈ findAll (("aaa").data) (("aa").data) ↔
        matchAt (("aaa").data) (("aa").data) 1 = true) :=
  ⟨(findAll_complete_sorted (("aaa").data) (("aa").data) (by decide)).1,
   (findAll_complete_sorted (("aaa").data) (("aa").data) (by decide)).2 1⟩

end EditorOfDeath
